import Mathlib

/-!
# kubectl-watchhook: a verification development

A shallow embedding of `pkg/cmd/kubectl-watch-hook.go`.

Modelling conventions.

* A Go `string` is a Lean `String`.  The program only ever compares whole
  strings and looks for the ASCII characters `.`, `v` and `0`..`9`; for these
  it makes no difference whether a string is read byte by byte (Go) or
  character by character (Lean).
* A Go slice is a `List`; the functions embedded here never write through a
  slice they were given, so value semantics is faithful.
* A Go run-time panic (index out of range) is the result `none`.
* A Go `error` result is `Option String`: `none` is `nil`, `some msg` is an
  error with message `msg`.  `preprocessArgs`, which on success writes
  `o.commandArgs` and `os.Args`, returns `Except String` of what it wrote.
* The two goroutines of `Run` talk only through `commandCh`.  The loop is a
  function of the sequence of outcomes of its `select`; the channel is the
  list of events sent, oldest first; the worker is a function of that list.
-/

namespace WatchHook

/-! ## Command line handling -/

/-- The two fields written by `preprocessArgs`: `o.commandArgs` and the
truncated global `os.Args`. -/
structure Preprocessed where
  commandArgs : List String
  osArgs : List String
  deriving DecidableEq, Repr

deriving instance DecidableEq for Except

/-- The loop `for i, arg := range os.Args` of `preprocessArgs`, started at
index `i` with `idx = -1`: the index of the first `"--"`, or `-1`. -/
def firstDashDash : List String → Nat → Int
  | [], _ => -1
  | arg :: rest, i => if arg = "--" then (i : Int) else firstDashDash rest (i + 1)

/-- Go: `func (o *WatchHookOptions) preprocessArgs() error`.  The global
`os.Args` is an explicit argument, and the state written on success is the
result. -/
def preprocessArgs (osArgs : List String) : Except String Preprocessed :=
  let idx : Int := firstDashDash osArgs 0
  if idx = -1 then
    Except.error "-- arg is required"
  else if idx + 1 > (osArgs.length : Int) then
    Except.error "<command> is required"
  else
    Except.ok ⟨osArgs.drop (idx + 1).toNat, osArgs.take idx.toNat⟩

/-- The loop `for _, arg := range cArgs[1:]` of `commandAndArgs`, whose body
is `remainingArgs = append(remainingArgs, arg)`. -/
def appendEach (remainingArgs : List String) : List String → List String
  | [] => remainingArgs
  | arg :: rest => appendEach (remainingArgs ++ [arg]) rest

/-- Go: `func commandAndArgs(cArgs []string, eventType string) (string, []string)`.
The result is `none` when `cArgs[0]` panics. -/
def commandAndArgs (cArgs : List String) (eventType : String) :
    Option (String × List String) :=
  let remainingArgs : List String := []
  let remainingArgs :=
    if cArgs.length > 1 then appendEach remainingArgs (cArgs.drop 1) else remainingArgs
  let remainingArgs := remainingArgs ++ [eventType]
  match cArgs with
  | [] => none
  | c :: _ => some (c, remainingArgs)

/-! ## Resource identifier parsing -/

/-- Cut a character list at the first `sep`: the text before it and the text
after it, or `none` when `sep` does not occur (Go: `strings.Index` followed by
the two slicings `s[:m]` and `s[m+1:]`). -/
def cutAt (sep : Char) : List Char → Option (List Char × List Char)
  | [] => none
  | c :: cs =>
    if c = sep then some ([], cs)
    else match cutAt sep cs with
      | none => none
      | some (a, b) => some (c :: a, b)

/-- Go: `strings.SplitN(s, ".", 2)`: one element when `s` has no `.`,
otherwise the text before the first `.` and everything after it. -/
def splitN2 (s : String) : List String :=
  match cutAt '.' s.data with
  | none => [s]
  | some (a, b) => [String.mk a, String.mk b]

/-- Go: `versionRegexp.MatchString(s)` for
`versionRegexp = regexp.MustCompile("^v[\\d]+")`: the text starts with `v`
followed by at least one ASCII digit. -/
def versionRegexpMatch (s : String) : Bool :=
  match s.data with
  | [] => false
  | c :: rest => c == 'v' && decide (1 ≤ (rest.takeWhile Char.isDigit).length)

/-- Go: `func parseGVKString(gvkString string) (string, string, string)`.
The result is in the source's order: group, version, kind.  `SplitN` with
limit 2 returns one or two elements, so the defaults of `getD` are never
used. -/
def parseGVKString (gvkString : String) : String × String × String :=
  let tokens := splitN2 gvkString
  if tokens.length = 1 then
    ("", "", tokens.getD 0 "")
  else
    let vkTokens := splitN2 (tokens.getD 1 "")
    if vkTokens.length = 1 then
      (tokens.getD 1 "", "", tokens.getD 0 "")
    else if versionRegexpMatch (vkTokens.getD 0 "") then
      (vkTokens.getD 1 "", vkTokens.getD 0 "", tokens.getD 0 "")
    else
      (tokens.getD 1 "", "", tokens.getD 0 "")

/-! ## The dispatch pipeline -/

/-- Modelled from the spec: the event type constants of the Kubernetes
library package `k8s.io/apimachinery/pkg/watch` (`watch.EventType` is a
string type); the package is not part of this repository.  The spec names the
labels `ADDED`, `MODIFIED`, `DELETED` and the `Error` type. -/
def watch.Added : String := "ADDED"

/-- Modelled from the spec: see `watch.Added`. -/
def watch.Modified : String := "MODIFIED"

/-- Modelled from the spec: see `watch.Added`. -/
def watch.Deleted : String := "DELETED"

/-- Modelled from the spec: see `watch.Added`. -/
def watch.Error : String := "ERROR"

/-- Modelled from the spec: see `watch.Added`; a type the run loop has no
case for. -/
def watch.Bookmark : String := "BOOKMARK"

/-- Go: `watch.Event`.  `type` is the event type (a string in Go); `object` is
the payload, which the run loop never inspects (it stands for the object by
an identifying text). -/
structure Event where
  type : String
  object : String
  deriving DecidableEq, Repr

/-- The fields of `WatchHookOptions` that the program logic reads. -/
structure WatchHookOptions where
  group : String
  version : String
  kind : String
  name : String
  args : List String
  commandArgs : List String
  deriving DecidableEq, Repr

/-- One outcome of the `select` statement in the loop of `Run`: an event
received from the watch's result channel, the result channel found closed
(`ok == false`), or a value received from `doneCh` (interrupt). -/
inductive Selected where
  | recv (event : Event)
  | closed
  | done
  deriving DecidableEq, Repr

/-- Where the loop of `Run` stands: still waiting in `select`, or returned
with a Go `error` (`none` is `nil`). -/
inductive LoopResult where
  | waiting
  | returned (err : Option String)
  deriving DecidableEq, Repr

/-- State of the loop of `Run`: its result so far, the events sent to
`commandCh` (oldest first), and the `select` outcomes not consumed. -/
structure LoopState where
  result : LoopResult
  commandCh : List Event
  pending : List Selected
  deriving DecidableEq, Repr

/-- The closure returned by `Run` (an endless `for` around a `select`), run on a finite
sequence of `select` outcomes, with `commandCh` the events sent so far.
Each `commandCh <- event` appends to the queue (the channel is FIFO; a full
buffer only delays the send until the worker has taken an event). -/
def WatchHookOptions.runLoop (o : WatchHookOptions) :
    List Selected → List Event → LoopState
  | [], commandCh => ⟨LoopResult.waiting, commandCh, []⟩
  | Selected.closed :: rest, commandCh =>
    ⟨LoopResult.returned (some "watch closed"), commandCh, rest⟩
  | Selected.done :: rest, commandCh =>
    ⟨LoopResult.returned none, commandCh, rest⟩
  | Selected.recv event :: rest, commandCh =>
    if event.type = watch.Deleted then
      if o.name ≠ "" then
        ⟨LoopResult.returned none, commandCh ++ [event], rest⟩
      else
        o.runLoop rest (commandCh ++ [event])
    else if event.type = watch.Error then
      ⟨LoopResult.returned (some "error event received"), commandCh, rest⟩
    else if event.type = watch.Added ∨ event.type = watch.Modified then
      o.runLoop rest (commandCh ++ [event])
    else
      ⟨LoopResult.returned (some ("unexpected event type: " ++ event.type)), commandCh, rest⟩

/-- One started hook process: `exec.Command(command, args...)` with the text
of `event` on its standard input. -/
structure Invocation where
  command : String
  args : List String
  event : Event
  deriving DecidableEq, Repr

/-- Go: `func (o *WatchHookOptions) call(event watch.Event)`: the process it
starts, or `none` when `commandAndArgs` panics. -/
def WatchHookOptions.call (o : WatchHookOptions) (event : Event) : Option Invocation :=
  match commandAndArgs o.commandArgs event.type with
  | none => none
  | some (command, commandArgs) => some ⟨command, commandArgs, event⟩

/-- The worker goroutine of `Run`, which does `o.call(e)` for each `e` of
`range commandCh`, on the events sent to `commandCh`: the processes started, in order.  `hookOk`
tells whether a started process exits with status zero; after a panic or a
failed hook (`log.Fatalf`) the process is gone and nothing more is started. -/
def WatchHookOptions.worker (o : WatchHookOptions) (hookOk : Invocation → Bool) :
    List Event → List Invocation
  | [] => []
  | e :: rest =>
    match o.call e with
    | none => []
    | some inv => if hookOk inv then inv :: o.worker hookOk rest else [inv]

/-- The exit status that `NewCmdWatchHook` and `main` give the error returned
by `Run`: `log.Fatalf` exits with status 1, a `nil` error ends in status 0. -/
def exitCode (err : Option String) : Nat :=
  match err with
  | none => 0
  | some _ => 1

/-! ## Vocabulary of the specification for resource identifiers -/

/-- The text of `s` up to its first `.` (all of `s` when it has none): the
first `.`-delimited token. -/
def firstToken (s : String) : String :=
  String.mk (s.data.takeWhile (fun ch => ch ≠ '.'))

/-- The text starts with `v` followed by at least one digit. -/
def StartsVDigit (s : String) : Prop :=
  ∃ d rest, s.data = 'v' :: d :: rest ∧ d.isDigit = true

instance (s : String) : Decidable (StartsVDigit s) :=
  match h : s.data with
  | [] => isFalse (by rintro ⟨d, rest, h1, _⟩; rw [h] at h1; exact List.noConfusion h1)
  | [_] => isFalse (by
      rintro ⟨d, rest, h1, _⟩
      rw [h] at h1
      exact List.noConfusion (List.cons.inj h1).2)
  | a :: d :: rest =>
    if hc : a = 'v' ∧ d.isDigit = true then
      isTrue ⟨d, rest, by rw [h, hc.1], hc.2⟩
    else
      isFalse (by
        rintro ⟨d2, rest2, h1, h2⟩
        rw [h] at h1
        obtain ⟨ha, hrest⟩ := List.cons.inj h1
        obtain ⟨hd, -⟩ := List.cons.inj hrest
        exact hc ⟨ha, by rw [hd]; exact h2⟩)

/-! ## Vocabulary of the specification for the dispatch pipeline -/

/-- An event the loop of `Run` forwards and goes on after: `Added` or
`Modified`. -/
def Forwarded (e : Event) : Prop :=
  e.type = watch.Added ∨ e.type = watch.Modified

/-- The terminal conditions of the pipeline, as outcomes of the loop's
`select`: the watch closed by the server, an interrupt, an `Error` event, a
`Deleted` event while one named object is watched, and an event whose type is
none of `Added`, `Modified`, `Deleted`. -/
def Terminal (o : WatchHookOptions) (s : Selected) : Prop :=
  match s with
  | Selected.closed => True
  | Selected.done => True
  | Selected.recv e =>
    e.type = watch.Error ∨ (e.type = watch.Deleted ∧ o.name ≠ "") ∨
    (e.type ≠ watch.Added ∧ e.type ≠ watch.Modified ∧ e.type ≠ watch.Deleted)

instance (o : WatchHookOptions) (s : Selected) : Decidable (Terminal o s) :=
  match s with
  | Selected.closed => isTrue trivial
  | Selected.done => isTrue trivial
  | Selected.recv e =>
    inferInstanceAs (Decidable (e.type = watch.Error ∨ (e.type = watch.Deleted ∧ o.name ≠ "") ∨
      (e.type ≠ watch.Added ∧ e.type ≠ watch.Modified ∧ e.type ≠ watch.Deleted)))

/-- The terminal outcome is itself an event for the hook: a `Deleted` event
(the deletion of the single named object). -/
def IsDeletion (s : Selected) : Prop :=
  match s with
  | Selected.recv e => e.type = watch.Deleted
  | _ => False

instance (s : Selected) : Decidable (IsDeletion s) :=
  match s with
  | Selected.closed => isFalse id
  | Selected.done => isFalse id
  | Selected.recv e => inferInstanceAs (Decidable (e.type = watch.Deleted))

/-! ## Example inputs -/

/-- Options of `kubectl watchhook pod web -- sh hook.sh`: one named object. -/
def namedOptions : WatchHookOptions :=
  ⟨"", "", "pod", "web", ["pod", "web"], ["sh", "hook.sh"]⟩

/-- Options of `kubectl watchhook pod -- sh hook.sh`: the whole collection. -/
def listOptions : WatchHookOptions :=
  ⟨"", "", "pod", "", ["pod"], ["sh", "hook.sh"]⟩

/-- A watch that delivers four events and is then closed by the server. -/
def sampleTrace : List Selected :=
  [Selected.recv ⟨watch.Added, "web"⟩, Selected.recv ⟨watch.Modified, "web"⟩,
   Selected.recv ⟨watch.Deleted, "web"⟩, Selected.recv ⟨watch.Added, "db"⟩, Selected.closed]

/-- A watch on a collection in which two objects are deleted before the
server closes it. -/
def churnTrace : List Selected :=
  [Selected.recv ⟨watch.Added, "web"⟩, Selected.recv ⟨watch.Deleted, "web"⟩,
   Selected.recv ⟨watch.Deleted, "db"⟩, Selected.recv ⟨watch.Added, "web"⟩, Selected.closed]

/-! ## Lemmas on the command line -/

theorem appendEach_eq (acc l : List String) : appendEach acc l = acc ++ l := by
  induction l generalizing acc with
  | nil => simp [appendEach]
  | cons x xs ih => simp [appendEach, ih]

theorem firstDashDash_absent (l : List String) (n : Nat) (h : "--" ∉ l) :
    firstDashDash l n = -1 := by
  induction l generalizing n with
  | nil => rfl
  | cons x xs ih =>
    have hx : x ≠ "--" := fun e => h (by simp [e])
    have hxs : "--" ∉ xs := fun e => h (by simp [e])
    simp [firstDashDash, hx, ih _ hxs]

theorem firstDashDash_at (pre post : List String) (n : Nat) (h : "--" ∉ pre) :
    firstDashDash (pre ++ "--" :: post) n = ((n + pre.length : Nat) : Int) := by
  induction pre generalizing n with
  | nil => simp [firstDashDash]
  | cons x xs ih =>
    have hx : x ≠ "--" := fun e => h (by simp [e])
    have hxs : "--" ∉ xs := fun e => h (by simp [e])
    show firstDashDash (x :: (xs ++ "--" :: post)) n = _
    rw [firstDashDash, if_neg hx, ih (n + 1) hxs]
    simp only [List.length_cons]
    congr 1
    omega

theorem preprocessArgs_at (pre post : List String) (h : "--" ∉ pre) :
    preprocessArgs (pre ++ "--" :: post) = Except.ok ⟨post, pre⟩ := by
  have hidx := firstDashDash_at pre post 0 h
  simp only [Nat.zero_add] at hidx
  have h1 : ¬ ((pre.length : Int) = -1) := by omega
  have h2 : ¬ ((pre.length : Int) + 1 > ((pre ++ "--" :: post).length : Int)) := by
    simp only [List.length_append, List.length_cons]
    push_cast
    omega
  have h3 : ((pre.length : Int) + 1).toNat = pre.length + 1 := by omega
  simp only [preprocessArgs, hidx, h1, h2, if_false, h3, Int.toNat_ofNat]
  simp

theorem preprocessArgs_absent (a : List String) (h : "--" ∉ a) :
    preprocessArgs a = Except.error "-- arg is required" := by
  simp [preprocessArgs, firstDashDash_absent a 0 h]

/-- Splitting a list at the first index that holds `"--"`. -/
theorem split_at_first (a : List String) (i : Nat) (hi : a[i]? = some "--")
    (hlt : ∀ j, j < i → a[j]? ≠ some "--") :
    a = a.take i ++ "--" :: a.drop (i + 1) ∧ "--" ∉ a.take i := by
  have hlen : i < a.length := by
    by_contra hc
    rw [List.getElem?_eq_none (by omega)] at hi
    exact absurd hi (by simp)
  have hget : a[i] = "--" := by
    rw [List.getElem?_eq_getElem hlen] at hi
    exact Option.some.inj hi
  refine ⟨?_, ?_⟩
  · conv_lhs => rw [← List.take_append_drop i a]
    rw [List.drop_eq_getElem_cons hlen, hget]
  · intro hmem
    obtain ⟨j, hj, hjeq⟩ := List.getElem_of_mem hmem
    have hji : j < i := by
      have := List.length_take_le i a
      omega
    rw [List.getElem_take] at hjeq
    apply hlt j hji
    rw [List.getElem?_eq_getElem (by omega), hjeq]

theorem commandAndArgs_cons (x : String) (xs : List String) (t : String) :
    commandAndArgs (x :: xs) t = some (x, xs ++ [t]) := by
  simp only [commandAndArgs, List.length_cons, List.drop_succ_cons, List.drop_zero,
    appendEach_eq, List.nil_append]
  cases xs with
  | nil => simp
  | cons y ys => simp

/-! ## Claims on the command line -/

/-- C1: for a non-empty command line `c` and an event-type label `t`,
`commandAndArgs c t` returns `c[0]` as the executable and, as the argument
list, `c[1:]` in its order followed by `t` as the single last element; the
argument list has the length of `c`. -/
theorem commandAndArgs_spec (cArgs : List String) (t : String) (hc : cArgs ≠ []) :
    ∃ exe args, commandAndArgs cArgs t = some (exe, args) ∧
      cArgs[0]? = some exe ∧ args = cArgs.drop 1 ++ [t] ∧
      args.length = cArgs.length ∧ args.getLast? = some t := by
  cases cArgs with
  | nil => exact absurd rfl hc
  | cons x xs =>
    exact ⟨x, xs ++ [t], commandAndArgs_cons x xs t, by simp, by simp, by simp, by simp⟩

theorem commandAndArgs_spec_witness :
    ["sh", "-c", "cat", "hook"] ≠ [] ∧
    ∃ exe args, commandAndArgs ["sh", "-c", "cat", "hook"] "MODIFIED" = some (exe, args) ∧
      ["sh", "-c", "cat", "hook"][0]? = some exe ∧
      args = ["sh", "-c", "cat", "hook"].drop 1 ++ ["MODIFIED"] ∧
      args.length = ["sh", "-c", "cat", "hook"].length ∧ args.getLast? = some "MODIFIED" :=
  ⟨by decide, commandAndArgs_spec ["sh", "-c", "cat", "hook"] "MODIFIED" (by decide)⟩

/-- C8: `preprocessArgs` splits the argument vector at the first `--`.  It
fails, with `-- arg is required`, exactly when no element is `--`; when the
first `--` is at index `i` it succeeds with the command line `a[i+1:]` and
the tool arguments `a[:i]`, so that `a` is the tool arguments, then `--`, then
the command line, and the tool arguments hold no `--`. -/
theorem preprocessArgs_split (a : List String) :
    (preprocessArgs a = Except.error "-- arg is required" ↔ "--" ∉ a) ∧
    ((∃ msg, preprocessArgs a = Except.error msg) ↔ "--" ∉ a) ∧
    (∀ i, a[i]? = some "--" → (∀ j, j < i → a[j]? ≠ some "--") →
      preprocessArgs a = Except.ok ⟨a.drop (i + 1), a.take i⟩ ∧
      a = a.take i ++ ["--"] ++ a.drop (i + 1) ∧ "--" ∉ a.take i) := by
  have hok : "--" ∈ a → ∃ r, preprocessArgs a = Except.ok r := by
    intro hmem
    obtain ⟨pre, post, rfl, hpre⟩ := List.eq_append_cons_of_mem hmem
    exact ⟨_, preprocessArgs_at pre post hpre⟩
  refine ⟨⟨?_, preprocessArgs_absent a⟩, ⟨?_, fun h => ⟨_, preprocessArgs_absent a h⟩⟩, ?_⟩
  · intro h hmem
    obtain ⟨r, hr⟩ := hok hmem
    rw [hr] at h
    exact Except.noConfusion h
  · rintro ⟨msg, h⟩ hmem
    obtain ⟨r, hr⟩ := hok hmem
    rw [hr] at h
    exact Except.noConfusion h
  · intro i hi hlt
    obtain ⟨hsplit, hno⟩ := split_at_first a i hi hlt
    refine ⟨?_, by simpa using hsplit, hno⟩
    conv_lhs => rw [hsplit]
    exact preprocessArgs_at _ _ hno

theorem preprocessArgs_split_witness :
    preprocessArgs ["kubectl-watchhook", "pod", "web", "--", "sh", "--", "x"] =
      Except.ok ⟨["sh", "--", "x"], ["kubectl-watchhook", "pod", "web"]⟩ ∧
    preprocessArgs ["kubectl-watchhook", "pod"] = Except.error "-- arg is required" :=
  ⟨((preprocessArgs_split ["kubectl-watchhook", "pod", "web", "--", "sh", "--", "x"]).2.2 3
      (by decide) (by decide)).1,
   (preprocessArgs_split ["kubectl-watchhook", "pod"]).1.2 (by decide)⟩

/-- C9: the check for a missing command never fires.  When the first `--` is
the last token, `preprocessArgs` succeeds with an empty command line (no
argument vector makes it return `<command> is required`), and
`commandAndArgs` then panics on `cArgs[0]`. -/
theorem preprocessArgs_missing_command :
    preprocessArgs ["kubectl-watchhook", "pod", "--"] =
      Except.ok ⟨[], ["kubectl-watchhook", "pod"]⟩ ∧
    (∀ a, preprocessArgs a ≠ Except.error "<command> is required") ∧
    (∀ t, commandAndArgs [] t = none) := by
  refine ⟨by decide, ?_, fun t => rfl⟩
  intro a h
  by_cases hmem : "--" ∈ a
  · obtain ⟨pre, post, rfl, hpre⟩ := List.eq_append_cons_of_mem hmem
    rw [preprocessArgs_at pre post hpre] at h
    exact Except.noConfusion h
  · rw [preprocessArgs_absent a hmem] at h
    exact absurd (Except.error.inj h) (by decide)

/-! ## Lemmas on resource identifiers -/

theorem cutAt_absent (sep : Char) (l : List Char) (h : sep ∉ l) : cutAt sep l = none := by
  induction l with
  | nil => rfl
  | cons x xs ih =>
    have hx : x ≠ sep := fun e => h (by simp [e])
    have hxs : sep ∉ xs := fun e => h (by simp [e])
    simp [cutAt, hx, ih hxs]

theorem cutAt_at (sep : Char) (a b : List Char) (h : sep ∉ a) :
    cutAt sep (a ++ sep :: b) = some (a, b) := by
  induction a with
  | nil => simp [cutAt]
  | cons x xs ih =>
    have hx : x ≠ sep := fun e => h (by simp [e])
    have hxs : sep ∉ xs := fun e => h (by simp [e])
    show cutAt sep (x :: (xs ++ sep :: b)) = _
    rw [cutAt, if_neg hx, ih hxs]

theorem cutAt_some (sep : Char) (l a b : List Char) (h : cutAt sep l = some (a, b)) :
    l = a ++ sep :: b ∧ sep ∉ a := by
  induction l generalizing a with
  | nil => simp [cutAt] at h
  | cons x xs ih =>
    rw [cutAt] at h
    by_cases hx : x = sep
    · rw [if_pos hx] at h
      obtain ⟨rfl, rfl⟩ := Prod.mk.inj (Option.some.inj h)
      simp [hx]
    · rw [if_neg hx] at h
      cases hc : cutAt sep xs with
      | none => rw [hc] at h; exact Option.noConfusion h
      | some p =>
        obtain ⟨a2, b2⟩ := p
        rw [hc] at h
        obtain ⟨rfl, rfl⟩ := Prod.mk.inj (Option.some.inj h)
        obtain ⟨h1, h2⟩ := ih a2 hc
        refine ⟨by rw [h1]; rfl, ?_⟩
        intro hm
        rcases List.mem_cons.1 hm with e | e
        · exact hx e.symm
        · exact h2 e

/-- `SplitN` with limit 2 returns one or two elements. -/
theorem splitN2_length (s : String) : (splitN2 s).length = 1 ∨ (splitN2 s).length = 2 := by
  unfold splitN2
  cases cutAt '.' s.data with
  | none => exact Or.inl rfl
  | some p => exact Or.inr rfl

theorem splitN2_absent (s : String) (h : '.' ∉ s.data) : splitN2 s = [s] := by
  simp [splitN2, cutAt_absent _ _ h]

theorem splitN2_at (a b : String) (h : '.' ∉ a.data) :
    splitN2 (a ++ "." ++ b) = [a, b] := by
  have hd : (a ++ "." ++ b).data = a.data ++ '.' :: b.data := by
    simp [String.data_append]
  simp [splitN2, hd, cutAt_at _ _ _ h]

theorem versionRegexpMatch_iff (s : String) :
    versionRegexpMatch s = true ↔ StartsVDigit s := by
  unfold versionRegexpMatch StartsVDigit
  cases hs : s.data with
  | nil => simp
  | cons x xs =>
    cases xs with
    | nil => simp
    | cons d rest =>
      by_cases hd : d.isDigit = true
      · simp only [List.takeWhile_cons, hd, if_true, List.length_cons, Bool.and_eq_true,
          beq_iff_eq, decide_eq_true_eq]
        constructor
        · rintro ⟨hx, -⟩
          exact ⟨d, rest, by rw [hx], hd⟩
        · rintro ⟨d2, rest2, h1, -⟩
          exact ⟨(List.cons.inj h1).1, by omega⟩
      · simp only [List.takeWhile_cons, hd, Bool.and_eq_true, beq_iff_eq, decide_eq_true_eq]
        constructor
        · rintro ⟨-, h2⟩
          simp at h2
        · rintro ⟨d2, rest2, h1, h2⟩
          obtain ⟨-, hr⟩ := List.cons.inj h1
          obtain ⟨hd2, -⟩ := List.cons.inj hr
          exact absurd (by rw [hd2]; exact h2) hd

theorem firstToken_of_cutAt (g : String) (a b : List Char)
    (h : cutAt '.' g.data = some (a, b)) : firstToken g = String.mk a := by
  obtain ⟨hg, ha⟩ := cutAt_some _ _ _ _ h
  have htw : (a ++ '.' :: b).takeWhile (fun ch => ch ≠ '.') = a := by
    clear hg h
    induction a with
    | nil => simp [List.takeWhile_cons]
    | cons x xs ih =>
      have hx : x ≠ '.' := fun e => ha (by simp [e])
      have hxs : '.' ∉ xs := fun e => ha (by simp [e])
      simpa [List.takeWhile_cons, hx] using ih hxs
  unfold firstToken
  rw [hg, htw]

theorem parseGVKString_kind (k : String) (hk : '.' ∉ k.data) :
    parseGVKString k = ("", "", k) := by
  simp [parseGVKString, splitN2_absent k hk]

theorem parseGVKString_kind_group (k g : String) (hk : '.' ∉ k.data)
    (hg : ¬ StartsVDigit (firstToken g)) :
    parseGVKString (k ++ "." ++ g) = (g, "", k) := by
  unfold parseGVKString
  simp only [splitN2_at k g hk, List.length_cons, List.length_nil]
  cases hc : cutAt '.' g.data with
  | none => simp [splitN2, hc]
  | some p =>
    obtain ⟨a, b⟩ := p
    have hft := firstToken_of_cutAt g a b hc
    have hv : versionRegexpMatch (String.mk a) = false := by
      rw [← hft]
      rw [← Bool.not_eq_true, versionRegexpMatch_iff]
      exact hg
    simp [splitN2, hc, hv]

theorem parseGVKString_kind_version_group (k v g : String) (hk : '.' ∉ k.data)
    (hv : '.' ∉ v.data) (hd : StartsVDigit v) :
    parseGVKString (k ++ "." ++ v ++ "." ++ g) = (g, v, k) := by
  have hassoc : k ++ "." ++ v ++ "." ++ g = k ++ "." ++ (v ++ "." ++ g) := by
    simp [String.append_assoc]
  have hm : versionRegexpMatch v = true := (versionRegexpMatch_iff v).2 hd
  rw [hassoc]
  unfold parseGVKString
  simp [splitN2_at k _ hk, splitN2_at v g hv, hm]

/-! ## Claims on resource identifiers -/

/-- C2: `parseGVKString` on the three documented forms, for a kind `k` without
`.`: (1) `k` alone gives kind `k`, empty version and group; (2) `k.g`, where
the first `.`-delimited token of `g` does not start with `v` and a digit, gives
kind `k`, empty version and group all of `g`; (3) `k.v.g`, where `v` has no `.`
and starts with `v` and a digit, gives kind `k`, version `v` and group `g`.
The triples are in the order the function returns them: group, version,
kind. -/
theorem parseGVKString_forms (k : String) (hk : '.' ∉ k.data) :
    parseGVKString k = ("", "", k) ∧
    (∀ g, ¬ StartsVDigit (firstToken g) → parseGVKString (k ++ "." ++ g) = (g, "", k)) ∧
    (∀ v g, '.' ∉ v.data → StartsVDigit v →
      parseGVKString (k ++ "." ++ v ++ "." ++ g) = (g, v, k)) :=
  ⟨parseGVKString_kind k hk,
   fun g hg => parseGVKString_kind_group k g hk hg,
   fun v g hv hd => parseGVKString_kind_version_group k v g hk hv hd⟩

theorem parseGVKString_forms_witness :
    parseGVKString "pod" = ("", "", "pod") ∧
    parseGVKString "widget.example.com" = ("example.com", "", "widget") ∧
    parseGVKString "widget.v1.example.com" = ("example.com", "v1", "widget") :=
  ⟨(parseGVKString_forms "pod" (by decide)).1,
   (parseGVKString_forms "widget" (by decide)).2.1 "example.com" (by decide),
   (parseGVKString_forms "widget" (by decide)).2.2 "v1" "example.com" (by decide) (by decide)⟩

/-- C10, as the specification has it, fails: the two-part identifier
`deployment.v1` is given group `v1` and an empty version, not version `v1`
and an empty group. -/
theorem parseGVKString_kind_version_counterexample :
    ('.' ∉ "deployment".data ∧ '.' ∉ "v1".data ∧ StartsVDigit "v1") ∧
    parseGVKString ("deployment" ++ "." ++ "v1") = ("v1", "", "deployment") ∧
    parseGVKString ("deployment" ++ "." ++ "v1") ≠ ("", "v1", "deployment") := by
  decide

/-- C10, amended: a two-part identifier is always `kind.group`.  For a kind
`k` without `.` and a token `v` without `.`, be it of the form of a version
(`v1`, `v2beta1`) or not, `parseGVKString (k.v)` returns kind `k`, an empty
version and group `v`. -/
theorem parseGVKString_two_part (k v : String) (hk : '.' ∉ k.data) (hv : '.' ∉ v.data) :
    parseGVKString (k ++ "." ++ v) = (v, "", k) := by
  unfold parseGVKString
  simp [splitN2_at k v hk, splitN2_absent v hv]

theorem parseGVKString_two_part_witness :
    StartsVDigit "v2beta1" ∧
    parseGVKString "deployment.v2beta1" = ("v2beta1", "", "deployment") :=
  ⟨by decide, parseGVKString_two_part "deployment" "v2beta1" (by decide) (by decide)⟩

/-! ## Lemmas on the dispatch pipeline -/

/-- The loop run on a sequence cut in two: when the first part leaves the loop
waiting, the second part is run with the queue the first part left; otherwise
the second part is left unconsumed. -/
theorem runLoop_append (o : WatchHookOptions) (pre post : List Selected) (q : List Event) :
    o.runLoop (pre ++ post) q =
      match (o.runLoop pre q).result with
      | LoopResult.waiting => o.runLoop post (o.runLoop pre q).commandCh
      | LoopResult.returned err =>
        ⟨LoopResult.returned err, (o.runLoop pre q).commandCh, (o.runLoop pre q).pending ++ post⟩ := by
  induction pre generalizing q with
  | nil => simp [WatchHookOptions.runLoop]
  | cons s rest ih =>
    cases s with
    | closed => simp [WatchHookOptions.runLoop]
    | done => simp [WatchHookOptions.runLoop]
    | recv e =>
      simp only [List.cons_append, WatchHookOptions.runLoop]
      split_ifs <;> first | exact ih _ | rfl

theorem runLoop_waiting_append (o : WatchHookOptions) (pre post : List Selected)
    (q : List Event) (h : (o.runLoop pre q).result = LoopResult.waiting) :
    o.runLoop (pre ++ post) q = o.runLoop post (o.runLoop pre q).commandCh := by
  rw [runLoop_append, h]

theorem watch_types_distinct :
    watch.Added ≠ watch.Deleted ∧ watch.Modified ≠ watch.Deleted ∧
    watch.Added ≠ watch.Error ∧ watch.Modified ≠ watch.Error ∧
    watch.Error ≠ watch.Deleted := by
  decide

theorem runLoop_recv_deleted_named (o : WatchHookOptions) (e : Event) (rest : List Selected)
    (q : List Event) (he : e.type = watch.Deleted) (hn : o.name ≠ "") :
    o.runLoop (Selected.recv e :: rest) q = ⟨LoopResult.returned none, q ++ [e], rest⟩ := by
  rw [WatchHookOptions.runLoop, if_pos he, if_pos hn]

theorem runLoop_recv_deleted_unnamed (o : WatchHookOptions) (e : Event)
    (rest : List Selected) (q : List Event) (he : e.type = watch.Deleted) (hn : o.name = "") :
    o.runLoop (Selected.recv e :: rest) q = o.runLoop rest (q ++ [e]) := by
  rw [WatchHookOptions.runLoop, if_pos he, if_neg (not_not.2 hn)]

theorem runLoop_recv_error (o : WatchHookOptions) (e : Event) (rest : List Selected)
    (q : List Event) (he : e.type = watch.Error) :
    o.runLoop (Selected.recv e :: rest) q =
      ⟨LoopResult.returned (some "error event received"), q, rest⟩ := by
  have hd : e.type ≠ watch.Deleted := by rw [he]; exact watch_types_distinct.2.2.2.2
  rw [WatchHookOptions.runLoop, if_neg hd, if_pos he]

theorem runLoop_recv_forwarded (o : WatchHookOptions) (e : Event) (rest : List Selected)
    (q : List Event) (he : Forwarded e) :
    o.runLoop (Selected.recv e :: rest) q = o.runLoop rest (q ++ [e]) := by
  have hd : e.type ≠ watch.Deleted := by
    rcases he with h1 | h1 <;> rw [h1]
    · exact watch_types_distinct.1
    · exact watch_types_distinct.2.1
  have hne : e.type ≠ watch.Error := by
    rcases he with h1 | h1 <;> rw [h1]
    · exact watch_types_distinct.2.2.1
    · exact watch_types_distinct.2.2.2.1
  have hf : e.type = watch.Added ∨ e.type = watch.Modified := he
  rw [WatchHookOptions.runLoop, if_neg hd, if_neg hne, if_pos hf]

theorem runLoop_recv_other (o : WatchHookOptions) (e : Event) (rest : List Selected)
    (q : List Event) (hd : e.type ≠ watch.Deleted) (hne : e.type ≠ watch.Error)
    (hf : ¬ Forwarded e) :
    o.runLoop (Selected.recv e :: rest) q =
      ⟨LoopResult.returned (some ("unexpected event type: " ++ e.type)), q, rest⟩ := by
  have hf2 : ¬ (e.type = watch.Added ∨ e.type = watch.Modified) := hf
  rw [WatchHookOptions.runLoop, if_neg hd, if_neg hne, if_neg hf2]

theorem runLoop_forwarded (o : WatchHookOptions) (pre : List Event) (rest : List Selected)
    (q : List Event) (h : ∀ e ∈ pre, Forwarded e) :
    o.runLoop (pre.map Selected.recv ++ rest) q = o.runLoop rest (q ++ pre) := by
  induction pre generalizing q with
  | nil => simp
  | cons e es ih =>
    have he : Forwarded e := h e (by simp)
    have hes : ∀ x ∈ es, Forwarded x := fun x hx => h x (by simp [hx])
    show o.runLoop (Selected.recv e :: (es.map Selected.recv ++ rest)) q = _
    rw [runLoop_recv_forwarded o e _ q he, ih _ hes]
    simp

/-- What the loop has consumed: the events it sent to `commandCh`, in order,
and after them at most the one `select` outcome that made it return. -/
theorem runLoop_consumed (o : WatchHookOptions) (trace : List Selected) (q : List Event) :
    ∃ new, (o.runLoop trace q).commandCh = q ++ new ∧
      (trace = new.map Selected.recv ++ (o.runLoop trace q).pending ∨
       ((o.runLoop trace q).result ≠ LoopResult.waiting ∧
        ∃ last, trace = new.map Selected.recv ++ last :: (o.runLoop trace q).pending)) := by
  induction trace generalizing q with
  | nil => exact ⟨[], by simp [WatchHookOptions.runLoop]⟩
  | cons s rest ih =>
    cases s with
    | closed =>
      exact ⟨[], by simp [WatchHookOptions.runLoop], Or.inr ⟨by simp [WatchHookOptions.runLoop],
        Selected.closed, by simp [WatchHookOptions.runLoop]⟩⟩
    | done =>
      exact ⟨[], by simp [WatchHookOptions.runLoop], Or.inr ⟨by simp [WatchHookOptions.runLoop],
        Selected.done, by simp [WatchHookOptions.runLoop]⟩⟩
    | recv e =>
      have hstep : ∀ (_ : o.runLoop (Selected.recv e :: rest) q = o.runLoop rest (q ++ [e])),
          ∃ new, (o.runLoop (Selected.recv e :: rest) q).commandCh = q ++ new ∧
            (Selected.recv e :: rest =
                new.map Selected.recv ++ (o.runLoop (Selected.recv e :: rest) q).pending ∨
             ((o.runLoop (Selected.recv e :: rest) q).result ≠ LoopResult.waiting ∧
              ∃ last, Selected.recv e :: rest = new.map Selected.recv ++
                last :: (o.runLoop (Selected.recv e :: rest) q).pending)) := by
        intro h
        obtain ⟨new, h1, h2⟩ := ih (q ++ [e])
        rw [h]
        refine ⟨e :: new, by rw [h1]; simp, ?_⟩
        rcases h2 with h2 | ⟨h3, last, h2⟩
        · exact Or.inl (by simpa using h2)
        · exact Or.inr ⟨h3, last, by simpa using h2⟩
      have hstop : ∀ err, o.runLoop (Selected.recv e :: rest) q =
            ⟨LoopResult.returned err, q, rest⟩ →
          ∃ new, (o.runLoop (Selected.recv e :: rest) q).commandCh = q ++ new ∧
            (Selected.recv e :: rest =
                new.map Selected.recv ++ (o.runLoop (Selected.recv e :: rest) q).pending ∨
             ((o.runLoop (Selected.recv e :: rest) q).result ≠ LoopResult.waiting ∧
              ∃ last, Selected.recv e :: rest = new.map Selected.recv ++
                last :: (o.runLoop (Selected.recv e :: rest) q).pending)) := by
        intro err h
        rw [h]
        exact ⟨[], by simp, Or.inr ⟨by simp, Selected.recv e, by simp⟩⟩
      by_cases hd : e.type = watch.Deleted
      · by_cases hn : o.name = ""
        · exact hstep (runLoop_recv_deleted_unnamed o e rest q hd hn)
        · rw [runLoop_recv_deleted_named o e rest q hd hn]
          exact ⟨[e], by simp, Or.inl (by simp)⟩
      · by_cases he : e.type = watch.Error
        · exact hstop _ (runLoop_recv_error o e rest q he)
        · by_cases hf : Forwarded e
          · exact hstep (runLoop_recv_forwarded o e rest q hf)
          · exact hstop _ (runLoop_recv_other o e rest q hd he hf)

/-- While the loop is waiting it has consumed everything and forwarded every
outcome. -/
theorem runLoop_waiting (o : WatchHookOptions) (trace : List Selected) (q : List Event)
    (h : (o.runLoop trace q).result = LoopResult.waiting) :
    ∃ new, (o.runLoop trace q).commandCh = q ++ new ∧ trace = new.map Selected.recv := by
  induction trace generalizing q with
  | nil => exact ⟨[], by simp [WatchHookOptions.runLoop]⟩
  | cons s rest ih =>
    cases s with
    | closed => simp [WatchHookOptions.runLoop] at h
    | done => simp [WatchHookOptions.runLoop] at h
    | recv e =>
      simp only [WatchHookOptions.runLoop] at h ⊢
      split_ifs at h ⊢ <;> first
        | (exact absurd h (by simp))
        | (obtain ⟨new, h1, h2⟩ := ih _ h
           exact ⟨e :: new, by rw [h1]; simp, by rw [h2]; simp⟩)

/-- Every event in the queue has one of the three types the loop forwards. -/
theorem runLoop_types (o : WatchHookOptions) (trace : List Selected) (q : List Event)
    (hq : ∀ e ∈ q, e.type = watch.Added ∨ e.type = watch.Modified ∨ e.type = watch.Deleted) :
    ∀ e ∈ (o.runLoop trace q).commandCh,
      e.type = watch.Added ∨ e.type = watch.Modified ∨ e.type = watch.Deleted := by
  induction trace generalizing q with
  | nil => simpa [WatchHookOptions.runLoop] using hq
  | cons s rest ih =>
    cases s with
    | closed => simpa [WatchHookOptions.runLoop] using hq
    | done => simpa [WatchHookOptions.runLoop] using hq
    | recv e =>
      simp only [WatchHookOptions.runLoop]
      have hq2 : e.type = watch.Added ∨ e.type = watch.Modified ∨ e.type = watch.Deleted →
          ∀ x ∈ q ++ [e],
            x.type = watch.Added ∨ x.type = watch.Modified ∨ x.type = watch.Deleted := by
        intro he x hx
        rcases List.mem_append.1 hx with hx | hx
        · exact hq x hx
        · rw [List.mem_singleton.1 hx]; exact he
      split_ifs with h1 h2 h3 h4
      · exact hq2 (Or.inr (Or.inr h1))
      · exact ih _ (hq2 (Or.inr (Or.inr h1)))
      · exact hq
      · exact ih _ (hq2 (by tauto))
      · exact hq

theorem worker_events (o : WatchHookOptions) (hookOk : Invocation → Bool)
    (hc : o.commandArgs ≠ []) (hok : ∀ inv, hookOk inv = true) (q : List Event) :
    o.worker hookOk q = q.map (fun e =>
      (⟨o.commandArgs.headD "", o.commandArgs.drop 1 ++ [e.type], e⟩ : Invocation)) := by
  induction q with
  | nil => rfl
  | cons e es ih =>
    cases hargs : o.commandArgs with
    | nil => exact absurd hargs hc
    | cons x xs =>
      rw [hargs] at ih
      simp only [WatchHookOptions.worker, WatchHookOptions.call, hargs, commandAndArgs_cons,
        hok, if_true, ih, List.map_cons]
      simp

/-- Every process the worker starts is for an event of the queue and has that
event's type as its last argument. -/
theorem worker_label (o : WatchHookOptions) (hookOk : Invocation → Bool) (q : List Event) :
    ∀ inv ∈ o.worker hookOk q, inv.event ∈ q ∧ inv.args.getLast? = some inv.event.type := by
  induction q with
  | nil => intro inv h; simp [WatchHookOptions.worker] at h
  | cons e es ih =>
    intro inv h
    cases hargs : o.commandArgs with
    | nil => simp [WatchHookOptions.worker, WatchHookOptions.call, hargs, commandAndArgs] at h
    | cons x xs =>
      simp only [WatchHookOptions.worker, WatchHookOptions.call, hargs,
        commandAndArgs_cons] at h
      have hfirst : ∀ i : Invocation, i = ⟨x, xs ++ [e.type], e⟩ →
          i.event ∈ e :: es ∧ i.args.getLast? = some i.event.type := by
        intro i hi
        rw [hi]
        simp
      split_ifs at h
      · rcases List.mem_cons.1 h with h | h
        · exact hfirst inv h
        · exact ⟨List.mem_cons_of_mem _ (ih inv h).1, (ih inv h).2⟩
      · exact hfirst inv (List.mem_singleton.1 h)

/-- Outcomes that are not terminal are events, and the loop sends each of them
to `commandCh` and goes on. -/
theorem runLoop_nonterminal (o : WatchHookOptions) (pre : List Selected) (q : List Event)
    (h : ∀ s ∈ pre, ¬ Terminal o s) :
    ∃ evs, pre = evs.map Selected.recv ∧
      ∀ rest, o.runLoop (pre ++ rest) q = o.runLoop rest (q ++ evs) := by
  induction pre generalizing q with
  | nil => exact ⟨[], rfl, fun rest => by simp⟩
  | cons s pre ih =>
    have hs : ¬ Terminal o s := h s (by simp)
    have hpre : ∀ x ∈ pre, ¬ Terminal o x := fun x hx => h x (by simp [hx])
    cases s with
    | closed => exact absurd trivial hs
    | done => exact absurd trivial hs
    | recv e =>
      have hs2 : ¬ (e.type = watch.Error ∨ (e.type = watch.Deleted ∧ o.name ≠ "") ∨
          (e.type ≠ watch.Added ∧ e.type ≠ watch.Modified ∧ e.type ≠ watch.Deleted)) := hs
      have hstep : ∀ rest, o.runLoop (Selected.recv e :: rest) q = o.runLoop rest (q ++ [e]) := by
        intro rest
        by_cases hD : e.type = watch.Deleted
        · have hn : o.name = "" := by
            by_contra hn
            exact hs2 (Or.inr (Or.inl ⟨hD, hn⟩))
          exact runLoop_recv_deleted_unnamed o e rest q hD hn
        · have hf : Forwarded e := by
            by_contra hf
            apply hs2
            refine Or.inr (Or.inr ⟨fun hA => hf (Or.inl hA), fun hM => hf (Or.inr hM), hD⟩)
          exact runLoop_recv_forwarded o e rest q hf
      obtain ⟨evs, h1, h2⟩ := ih (q ++ [e]) hpre
      refine ⟨e :: evs, by rw [h1]; rfl, fun rest => ?_⟩
      show o.runLoop (Selected.recv e :: (pre ++ rest)) q = _
      rw [hstep, h2 rest]
      simp

/-- On a terminal outcome the loop returns and leaves the rest unconsumed; it
sends the outcome to `commandCh` exactly when it is a `Deleted` event. -/
theorem runLoop_terminal (o : WatchHookOptions) (t : Selected) (rest : List Selected)
    (q : List Event) (ht : Terminal o t) :
    (o.runLoop (t :: rest) q).result ≠ LoopResult.waiting ∧
    (o.runLoop (t :: rest) q).pending = rest ∧
    (IsDeletion t →
      (o.runLoop (t :: rest) q).commandCh.map Selected.recv = q.map Selected.recv ++ [t]) ∧
    (¬ IsDeletion t → (o.runLoop (t :: rest) q).commandCh = q) := by
  cases t with
  | closed =>
    exact ⟨by simp [WatchHookOptions.runLoop], rfl, fun h => absurd h id, fun _ => rfl⟩
  | done =>
    exact ⟨by simp [WatchHookOptions.runLoop], rfl, fun h => absurd h id, fun _ => rfl⟩
  | recv e =>
    have ht2 : e.type = watch.Error ∨ (e.type = watch.Deleted ∧ o.name ≠ "") ∨
        (e.type ≠ watch.Added ∧ e.type ≠ watch.Modified ∧ e.type ≠ watch.Deleted) := ht
    by_cases hD : e.type = watch.Deleted
    · have hn : o.name ≠ "" := by
        rcases ht2 with h | h | h
        · rw [hD] at h
          exact absurd h.symm watch_types_distinct.2.2.2.2
        · exact h.2
        · exact absurd hD h.2.2
      rw [runLoop_recv_deleted_named o e rest q hD hn]
      exact ⟨by simp, rfl, fun _ => by simp, fun h => absurd hD h⟩
    · have hnd : ¬ IsDeletion (Selected.recv e) := hD
      by_cases hE : e.type = watch.Error
      · rw [runLoop_recv_error o e rest q hE]
        exact ⟨by simp, rfl, fun h => absurd h hnd, fun _ => rfl⟩
      · have hnf : ¬ Forwarded e := by
          rcases ht2 with h | h | h
          · exact absurd h hE
          · exact absurd h.1 hD
          · rintro (hA | hM)
            · exact h.1 hA
            · exact h.2.1 hM
        rw [runLoop_recv_other o e rest q hD hE hnf]
        exact ⟨by simp, rfl, fun h => absurd h hnd, fun _ => rfl⟩

/-! ## Claims on the dispatch pipeline -/

/-- C3: events reach the hook in the order received.  With a non-empty
command line and hooks that all succeed, the worker starts one hook process
per event the loop sent to `commandCh`, in that order, each with the command
line followed by that event's type.  The events sent are the leading `select`
outcomes of the run, one for one.  While no terminal condition has occurred
the loop is still waiting and has sent every outcome received.  At the first
terminal condition the loop returns, having sent every outcome before it (and
that outcome too when it is a `Deleted` event), and leaves what follows
unconsumed. -/
theorem dispatch_in_order (o : WatchHookOptions) (hookOk : Invocation → Bool)
    (trace : List Selected) (hc : o.commandArgs ≠ []) (hok : ∀ inv, hookOk inv = true) :
    (∃ exe, o.commandArgs[0]? = some exe ∧
      o.worker hookOk (o.runLoop trace []).commandCh =
        (o.runLoop trace []).commandCh.map (fun e =>
          (⟨exe, o.commandArgs.drop 1 ++ [e.type], e⟩ : Invocation))) ∧
    (o.worker hookOk (o.runLoop trace []).commandCh).map Invocation.event =
      (o.runLoop trace []).commandCh ∧
    (o.runLoop trace []).commandCh.map Selected.recv <+: trace ∧
    ((∀ s ∈ trace, ¬ Terminal o s) →
      (o.runLoop trace []).result = LoopResult.waiting ∧
      (o.runLoop trace []).commandCh.map Selected.recv = trace ∧
      (o.runLoop trace []).pending = []) ∧
    (∀ pre t rest, trace = pre ++ t :: rest → (∀ s ∈ pre, ¬ Terminal o s) → Terminal o t →
      (o.runLoop trace []).result ≠ LoopResult.waiting ∧
      (o.runLoop trace []).pending = rest ∧
      (IsDeletion t → (o.runLoop trace []).commandCh.map Selected.recv = pre ++ [t]) ∧
      (¬ IsDeletion t → (o.runLoop trace []).commandCh.map Selected.recv = pre)) := by
  obtain ⟨new, h1, h2⟩ := runLoop_consumed o trace []
  rw [List.nil_append] at h1
  have hw := worker_events o hookOk hc hok (o.runLoop trace []).commandCh
  refine ⟨?_, ?_, ?_, ?_, ?_⟩
  · cases hargs : o.commandArgs with
    | nil => exact absurd hargs hc
    | cons x xs =>
      refine ⟨x, by simp, ?_⟩
      rw [hw, hargs]
      rfl
  · rw [hw, List.map_map]
    exact List.map_id _
  · rw [h1]
    rcases h2 with h2 | ⟨-, last, h2⟩
    · exact ⟨_, h2.symm⟩
    · exact ⟨_, h2.symm⟩
  · intro hnt
    obtain ⟨evs, he1, he2⟩ := runLoop_nonterminal o trace [] hnt
    have hrun : o.runLoop trace [] = ⟨LoopResult.waiting, evs, []⟩ := by
      have := he2 []
      simpa [WatchHookOptions.runLoop] using this
    rw [hrun]
    exact ⟨rfl, he1.symm, rfl⟩
  · intro pre t rest htrace hpre ht
    obtain ⟨evs, he1, he2⟩ := runLoop_nonterminal o pre [] hpre
    have hrun : o.runLoop trace [] = o.runLoop (t :: rest) evs := by
      rw [htrace, he2 (t :: rest), List.nil_append]
    obtain ⟨t1, t2, t3, t4⟩ := runLoop_terminal o t rest evs ht
    rw [hrun]
    refine ⟨t1, t2, fun hd => ?_, fun hd => ?_⟩
    · rw [t3 hd, he1]
    · rw [t4 hd, he1]

theorem dispatch_in_order_witness :
    listOptions.worker (fun _ => true) (listOptions.runLoop churnTrace []).commandCh =
      [⟨"sh", ["hook.sh", "ADDED"], ⟨"ADDED", "web"⟩⟩,
       ⟨"sh", ["hook.sh", "DELETED"], ⟨"DELETED", "web"⟩⟩,
       ⟨"sh", ["hook.sh", "DELETED"], ⟨"DELETED", "db"⟩⟩,
       ⟨"sh", ["hook.sh", "ADDED"], ⟨"ADDED", "web"⟩⟩] ∧
    (listOptions.runLoop churnTrace []).commandCh.map Selected.recv =
      [Selected.recv ⟨"ADDED", "web"⟩, Selected.recv ⟨"DELETED", "web"⟩,
       Selected.recv ⟨"DELETED", "db"⟩, Selected.recv ⟨"ADDED", "web"⟩] ∧
    (namedOptions.runLoop churnTrace []).commandCh.map Selected.recv =
      [Selected.recv ⟨"ADDED", "web"⟩, Selected.recv ⟨"DELETED", "web"⟩] :=
  ⟨by
      obtain ⟨exe, h1, h2⟩ :=
        (dispatch_in_order listOptions (fun _ => true) churnTrace (by decide) (fun _ => rfl)).1
      rw [h2]
      obtain rfl : "sh" = exe := Option.some.inj h1
      decide,
   ((dispatch_in_order listOptions (fun _ => true) churnTrace (by decide)
      (fun _ => rfl)).2.2.2.2
      [Selected.recv ⟨"ADDED", "web"⟩, Selected.recv ⟨"DELETED", "web"⟩,
       Selected.recv ⟨"DELETED", "db"⟩, Selected.recv ⟨"ADDED", "web"⟩]
      Selected.closed [] rfl (by decide) (by decide)).2.2.2 (by decide),
   ((dispatch_in_order namedOptions (fun _ => true) churnTrace (by decide)
      (fun _ => rfl)).2.2.2.2
      [Selected.recv ⟨"ADDED", "web"⟩] (Selected.recv ⟨"DELETED", "web"⟩)
      [Selected.recv ⟨"DELETED", "db"⟩, Selected.recv ⟨"ADDED", "web"⟩, Selected.closed]
      rfl (by decide) (by decide)).2.2.1 (by decide)⟩

/-- C4: a `Deleted` event ends the loop exactly when one named object is
watched.  After events that are all `Added` or `Modified`, a `Deleted` event
is sent to `commandCh`; with a non-empty name the loop then returns `nil`
(exit status 0) and consumes nothing after it; with an empty name the loop is
still waiting and goes on with the rest of the stream. -/
theorem deleted_event (o : WatchHookOptions) (pre : List Event) (del : Event)
    (rest : List Selected) (hpre : ∀ e ∈ pre, e.type = watch.Added ∨ e.type = watch.Modified)
    (hdel : del.type = watch.Deleted) :
    (o.name ≠ "" →
      o.runLoop (pre.map Selected.recv ++ Selected.recv del :: rest) [] =
        ⟨LoopResult.returned none, pre ++ [del], rest⟩ ∧ exitCode none = 0) ∧
    (o.name = "" →
      o.runLoop (pre.map Selected.recv ++ [Selected.recv del]) [] =
        ⟨LoopResult.waiting, pre ++ [del], []⟩ ∧
      o.runLoop (pre.map Selected.recv ++ Selected.recv del :: rest) [] =
        o.runLoop rest (pre ++ [del])) := by
  have hf : ∀ e ∈ pre, Forwarded e := hpre
  refine ⟨fun hn => ⟨?_, rfl⟩, fun hn => ⟨?_, ?_⟩⟩
  · rw [runLoop_forwarded o pre _ [] hf, runLoop_recv_deleted_named o del rest _ hdel hn]
    simp
  · rw [runLoop_forwarded o pre _ [] hf, runLoop_recv_deleted_unnamed o del [] _ hdel hn]
    simp [WatchHookOptions.runLoop]
  · rw [runLoop_forwarded o pre _ [] hf, runLoop_recv_deleted_unnamed o del rest _ hdel hn]
    simp

theorem deleted_event_witness :
    namedOptions.runLoop sampleTrace [] =
      ⟨LoopResult.returned none,
       [⟨"ADDED", "web"⟩, ⟨"MODIFIED", "web"⟩, ⟨"DELETED", "web"⟩],
       [Selected.recv ⟨"ADDED", "db"⟩, Selected.closed]⟩ ∧
    listOptions.runLoop sampleTrace [] =
      listOptions.runLoop [Selected.recv ⟨"ADDED", "db"⟩, Selected.closed]
        [⟨"ADDED", "web"⟩, ⟨"MODIFIED", "web"⟩, ⟨"DELETED", "web"⟩] :=
  ⟨((deleted_event namedOptions [⟨"ADDED", "web"⟩, ⟨"MODIFIED", "web"⟩] ⟨"DELETED", "web"⟩
      [Selected.recv ⟨"ADDED", "db"⟩, Selected.closed] (by decide) (by decide)).1 (by decide)).1,
   ((deleted_event listOptions [⟨"ADDED", "web"⟩, ⟨"MODIFIED", "web"⟩] ⟨"DELETED", "web"⟩
      [Selected.recv ⟨"ADDED", "db"⟩, Selected.closed] (by decide) (by decide)).2 (by decide)).2⟩

/-- C5: an `Error` event ends the pipeline with a failure and is not
dispatched.  When the loop, still waiting after the outcomes `pre`, receives
an event of type `Error`, it returns a non-nil error (exit status not 0); the
queue is what it was before (the events of `pre`, so neither the `Error` event
nor anything after it), and what follows in the stream is left unconsumed. -/
theorem error_event_fatal (o : WatchHookOptions) (pre rest : List Selected) (e : Event)
    (hpre : (o.runLoop pre []).result = LoopResult.waiting) (he : e.type = watch.Error) :
    o.runLoop (pre ++ Selected.recv e :: rest) [] =
      ⟨LoopResult.returned (some "error event received"), (o.runLoop pre []).commandCh, rest⟩ ∧
    (o.runLoop pre []).commandCh.map Selected.recv = pre ∧
    e ∉ (o.runLoop (pre ++ Selected.recv e :: rest) []).commandCh ∧
    exitCode (some "error event received") ≠ 0 := by
  have hrun : o.runLoop (pre ++ Selected.recv e :: rest) [] =
      ⟨LoopResult.returned (some "error event received"), (o.runLoop pre []).commandCh,
        rest⟩ := by
    rw [runLoop_waiting_append o pre _ [] hpre, runLoop_recv_error o e rest _ he]
  obtain ⟨new, h1, h2⟩ := runLoop_waiting o pre [] hpre
  refine ⟨hrun, ?_, ?_, by decide⟩
  · rw [h1, h2]
    simp
  · intro hmem
    have ht := runLoop_types o (pre ++ Selected.recv e :: rest) [] (by simp) e hmem
    rw [he] at ht
    revert ht
    decide

theorem error_event_fatal_witness :
    listOptions.runLoop
        [Selected.recv ⟨"ADDED", "web"⟩, Selected.recv ⟨"ERROR", "status"⟩,
         Selected.recv ⟨"MODIFIED", "web"⟩] [] =
      ⟨LoopResult.returned (some "error event received"), [⟨"ADDED", "web"⟩],
       [Selected.recv ⟨"MODIFIED", "web"⟩]⟩ :=
  (error_event_fatal listOptions [Selected.recv ⟨"ADDED", "web"⟩]
    [Selected.recv ⟨"MODIFIED", "web"⟩] ⟨"ERROR", "status"⟩ (by decide) (by decide)).1

/-- C6, as the specification has it, fails: when the server closes the watch
after one `Added` event, the loop returns the error `watch closed`, and the
exit status is 1. -/
theorem watch_closed_counterexample :
    (listOptions.runLoop [Selected.recv ⟨watch.Added, "web"⟩, Selected.closed] []).result =
      LoopResult.returned (some "watch closed") ∧
    exitCode (some "watch closed") = 1 ∧
    (listOptions.runLoop [Selected.recv ⟨watch.Added, "web"⟩, Selected.closed] []).result ≠
      LoopResult.returned none := by
  decide

/-- C6, amended: when the result channel is closed after zero or more `Added`
or `Modified` events, the loop returns the error `watch closed` (exit status
1), with all those events sent to `commandCh`.  It returns `nil` (exit status
0) on an interrupt and on the deletion of the single named object. -/
theorem watch_closed_is_error (o : WatchHookOptions) (pre : List Event)
    (rest : List Selected) (hpre : ∀ e ∈ pre, e.type = watch.Added ∨ e.type = watch.Modified) :
    o.runLoop (pre.map Selected.recv ++ Selected.closed :: rest) [] =
      ⟨LoopResult.returned (some "watch closed"), pre, rest⟩ ∧
    exitCode (some "watch closed") = 1 ∧
    o.runLoop (pre.map Selected.recv ++ Selected.done :: rest) [] =
      ⟨LoopResult.returned none, pre, rest⟩ ∧
    (∀ del, del.type = watch.Deleted → o.name ≠ "" →
      o.runLoop (pre.map Selected.recv ++ Selected.recv del :: rest) [] =
        ⟨LoopResult.returned none, pre ++ [del], rest⟩) ∧
    exitCode none = 0 := by
  have hf : ∀ e ∈ pre, Forwarded e := hpre
  refine ⟨?_, rfl, ?_, ?_, rfl⟩
  · rw [runLoop_forwarded o pre _ [] hf]
    simp [WatchHookOptions.runLoop]
  · rw [runLoop_forwarded o pre _ [] hf]
    simp [WatchHookOptions.runLoop]
  · intro del hdel hn
    rw [runLoop_forwarded o pre _ [] hf, runLoop_recv_deleted_named o del rest _ hdel hn]
    simp

theorem watch_closed_is_error_witness :
    namedOptions.runLoop
        [Selected.recv ⟨"ADDED", "web"⟩, Selected.recv ⟨"MODIFIED", "web"⟩, Selected.closed] [] =
      ⟨LoopResult.returned (some "watch closed"),
       [⟨"ADDED", "web"⟩, ⟨"MODIFIED", "web"⟩], []⟩ :=
  (watch_closed_is_error namedOptions [⟨"ADDED", "web"⟩, ⟨"MODIFIED", "web"⟩] []
    (by decide)).1

/-- C7: the label passed to the hook is one of `ADDED`, `MODIFIED`,
`DELETED`.  Every event the loop sends to `commandCh` has type `Added`,
`Modified` or `Deleted`; every process the worker starts has one of the three
labels as its last argument; and an event of any other type (`Error`, a
bookmark, ...) received while the loop is waiting is not sent to `commandCh`
and makes the loop return an error. -/
theorem hook_labels (o : WatchHookOptions) (hookOk : Invocation → Bool)
    (trace : List Selected) :
    (∀ e ∈ (o.runLoop trace []).commandCh,
      e.type = watch.Added ∨ e.type = watch.Modified ∨ e.type = watch.Deleted) ∧
    (∀ inv ∈ o.worker hookOk (o.runLoop trace []).commandCh,
      inv.args.getLast? = some "ADDED" ∨ inv.args.getLast? = some "MODIFIED" ∨
      inv.args.getLast? = some "DELETED") ∧
    (∀ pre e rest, trace = pre ++ Selected.recv e :: rest →
      (o.runLoop pre []).result = LoopResult.waiting →
      e.type ≠ watch.Added → e.type ≠ watch.Modified → e.type ≠ watch.Deleted →
      ∃ msg, o.runLoop trace [] =
          ⟨LoopResult.returned (some msg), (o.runLoop pre []).commandCh, rest⟩ ∧
        e ∉ (o.runLoop trace []).commandCh ∧ exitCode (some msg) ≠ 0) := by
  have htypes := runLoop_types o trace [] (by simp)
  refine ⟨htypes, ?_, ?_⟩
  · intro inv hinv
    obtain ⟨hmem, hlast⟩ := worker_label o hookOk _ inv hinv
    rw [hlast]
    rcases htypes _ hmem with h | h | h <;> rw [h]
    · exact Or.inl rfl
    · exact Or.inr (Or.inl rfl)
    · exact Or.inr (Or.inr rfl)
  · intro pre e rest htrace hpre hA hM hD
    have hnot : e ∉ (o.runLoop trace []).commandCh := by
      intro hmem
      rcases htypes e hmem with h | h | h
      · exact hA h
      · exact hM h
      · exact hD h
    have hnf : ¬ Forwarded e := by
      rintro (h | h)
      · exact hA h
      · exact hM h
    by_cases hE : e.type = watch.Error
    · refine ⟨"error event received", ?_, hnot, by decide⟩
      rw [htrace, runLoop_waiting_append o pre _ [] hpre, runLoop_recv_error o e rest _ hE]
    · refine ⟨"unexpected event type: " ++ e.type, ?_, hnot, by simp [exitCode]⟩
      rw [htrace, runLoop_waiting_append o pre _ [] hpre,
        runLoop_recv_other o e rest _ hD hE hnf]

theorem hook_labels_witness :
    ∃ msg, listOptions.runLoop
        [Selected.recv ⟨"ADDED", "web"⟩, Selected.recv ⟨"BOOKMARK", "web"⟩,
         Selected.recv ⟨"MODIFIED", "web"⟩] [] =
        ⟨LoopResult.returned (some msg),
         (listOptions.runLoop [Selected.recv ⟨"ADDED", "web"⟩] []).commandCh,
         [Selected.recv ⟨"MODIFIED", "web"⟩]⟩ ∧
      (⟨"BOOKMARK", "web"⟩ : Event) ∉ (listOptions.runLoop
        [Selected.recv ⟨"ADDED", "web"⟩, Selected.recv ⟨"BOOKMARK", "web"⟩,
         Selected.recv ⟨"MODIFIED", "web"⟩] []).commandCh ∧
      exitCode (some msg) ≠ 0 :=
  (hook_labels listOptions (fun _ => true)
    [Selected.recv ⟨"ADDED", "web"⟩, Selected.recv ⟨"BOOKMARK", "web"⟩,
     Selected.recv ⟨"MODIFIED", "web"⟩]).2.2
    [Selected.recv ⟨"ADDED", "web"⟩] ⟨"BOOKMARK", "web"⟩ [Selected.recv ⟨"MODIFIED", "web"⟩]
    rfl (by decide) (by decide) (by decide) (by decide)

end WatchHook
